import Mathlib

/-!
Verification of the fixed-size square matrix engine and canvas of a small
ray tracer.

The scalar type of the source is `f64`; it is embedded here as `ℚ`, exact
arithmetic.  Every concrete scenario of the specification uses small
integer inputs whose double-precision arithmetic is exact, so the rational
model computes the same values the code does on those inputs.

A matrix of order `D` is stored in the source as a flat row-major array of
`D * D` scalars with `index(r, c) = c + r * D`; it is embedded as a total
function from flat indices to scalars, observed only at indices below
`D * D` (matrix equality in the source, `PartialEq` on the flat array,
compares exactly those `D²` positions).

The determinant, minor deletion, cofactor, transpose, negation, scalar
division and inverse are exercised by the repository only through tests;
their bodies are modelled from the specification, each marked
`Modelled from the spec:` in its doc comment.  The constructors `zero`,
`one`, `ident`, the addition and the matrix product, and the whole canvas
component, are embedded from the source.
-/

namespace RayTracer

abbrev Scalar := ℚ

/-- A square matrix of order `D`: flat row-major storage, as in the source
macro `matrix!` (`data: [f64; N]` with `N = D * D`). -/
structure TinyMatrix (D : Nat) where
  data : Nat → Scalar

namespace TinyMatrix

/-- Source `index(r, c) = c + r * C` with `C = D`. -/
def idx (D r c : Nat) : Nat := c + r * D

/-- Read the element at row `r`, column `c` through the flat index. -/
def get {D : Nat} (m : TinyMatrix D) (r c : Nat) : Scalar := m.data (idx D r c)

/-- Build a matrix whose cell `(r, c)` (at flat index `c + r * D`) holds
`f r c`; this is how the source loops fill `res.data[res.index(r, c)]`. -/
def ofFn (D : Nat) (f : Nat → Nat → Scalar) : TinyMatrix D :=
  ⟨fun i => f (i / D) (i % D)⟩

/-- Source `new(data)`: wrap a flat row-major list of `D * D` scalars. -/
def ofList (D : Nat) (l : List Scalar) : TinyMatrix D :=
  ⟨fun i => l.getD i 0⟩

/-- Source `zero()`: every element `0.0`. -/
def zero (D : Nat) : TinyMatrix D := ⟨fun _ => 0⟩

/-- Source `one()`: every element `1.0`. -/
def one (D : Nat) : TinyMatrix D := ⟨fun _ => 1⟩

/-- Write value `v` at flat index `j` (source `m.data[j] = v`). -/
def setData {D : Nat} (m : TinyMatrix D) (j : Nat) (v : Scalar) : TinyMatrix D :=
  ⟨fun i => if i = j then v else m.data i⟩

/-- Source `ident()`: start from `zero()` and set `data[index(i, i)] = 1.0`
for `i` in `0 .. min(R, C) = D`, by a left fold over the loop range. -/
def ident (D : Nat) : TinyMatrix D :=
  (List.range D).foldl (fun m i => m.setData (idx D i i) 1) (zero D)

/-- Source `impl Add`: `rhs.data[i] += self.data[i]` for every flat index,
so cell `i` of `a + b` holds `b.data i + a.data i`. -/
def add {D : Nat} (a b : TinyMatrix D) : TinyMatrix D :=
  ⟨fun i => b.data i + a.data i⟩

/-- One cell of the source `matrix_mul!` product: the inner `j` loop
accumulates `self[r][j] * rhs[j][c]` into a cell that starts at `0`. -/
def mulEntry {D : Nat} (a b : TinyMatrix D) (r c : Nat) : Scalar :=
  (List.range D).foldl (fun acc j => acc + a.get r j * b.get j c) 0

/-- Source `impl Mul` from `matrix_mul!`: fill every cell `(r, c)` of a
zero matrix with the accumulated inner product. -/
def mul {D : Nat} (a b : TinyMatrix D) : TinyMatrix D :=
  ofFn D (mulEntry a b)

/-- Matrix equality as the source `PartialEq` on the flat array: all `D²`
stored elements pairwise exactly equal. -/
def elemEq {D : Nat} (a b : TinyMatrix D) : Prop :=
  ∀ r < D, ∀ c < D, a.get r c = b.get r c

/-- Modelled from the spec: negation (absent from src/, used only by
tests) — "Negation: elementwise sign flip". -/
def neg {D : Nat} (m : TinyMatrix D) : TinyMatrix D :=
  ⟨fun i => -(m.data i)⟩

/-- Modelled from the spec: `transposed()` (absent from src/) — "returns a
new matrix with `result[r][c] = self[c][r]`". -/
def transposed {D : Nat} (m : TinyMatrix D) : TinyMatrix D :=
  ofFn D (fun r c => m.get c r)

/-- Modelled from the spec: division by scalar (absent from src/) —
"elementwise division". -/
def divScalar {D : Nat} (m : TinyMatrix D) (s : Scalar) : TinyMatrix D :=
  ⟨fun i => m.data i / s⟩

/-- Modelled from the spec: `delete(r, c)` (absent from src/) — "returns
the matrix formed by removing row `r` and column `c` from self". -/
def delete {D : Nat} (m : TinyMatrix D) (r c : Nat) : TinyMatrix (D - 1) :=
  ofFn (D - 1) (fun i j =>
    m.get (if i < r then i else i + 1) (if j < c then j else j + 1))

/-- Modelled from the spec: `determinant()` (absent from src/) — base case
`D = 1` returns the single element; recursive case sums
`self[0][c] * sign * delete(0, c).determinant()` over the first row with
the checkerboard sign `(-1)^(0+c)`.  The order-0 value is junk, never
reached from orders 1–4. -/
def det : (D : Nat) → TinyMatrix D → Scalar
  | 0, _ => 0
  | 1, m => m.get 0 0
  | d + 2, m =>
    (List.range (d + 2)).foldl
      (fun acc c =>
        acc + m.get 0 c *
          ((if (0 + c) % 2 = 0 then (1 : Scalar) else -1) * det (d + 1) (m.delete 0 c)))
      0

/-- Modelled from the spec: `cofactor(r, c)` (absent from src/) —
"`sign * delete(r,c).determinant()` where `sign = +1` if `(r+c)` is even,
`-1` otherwise". -/
def cofactor {D : Nat} (m : TinyMatrix D) (r c : Nat) : Scalar :=
  (if (r + c) % 2 = 0 then (1 : Scalar) else -1) * det (D - 1) (m.delete r c)

/-- Modelled from the spec: the matrix of cofactors
`C[r][c] = cofactor(r, c)`. -/
def cofactorMatrix {D : Nat} (m : TinyMatrix D) : TinyMatrix D :=
  ofFn D (fun r c => m.cofactor r c)

/-- Modelled from the spec: `inverse()` (absent from src/) — if the
determinant is exactly `0` return the absent variant; otherwise transpose
the cofactor matrix (the adjugate) and divide every element by the
determinant, returned as present. -/
def inverse {D : Nat} (m : TinyMatrix D) : Option (TinyMatrix D) :=
  let d := det D m
  if d = 0 then none
  else some (divScalar (transposed (cofactorMatrix m)) d)

end TinyMatrix

/-- Source `Color`: three `f64` channels `r`, `g`, `b` (macro
`coordinate_struct!`). -/
structure Color where
  r : Scalar
  g : Scalar
  b : Scalar

/-- Source constant `BLACK`, the `Default` color. -/
def BLACK : Color := ⟨0, 0, 0⟩

/-- Rust `as u64` on a float: truncation toward zero, saturating at `0`
below (so negative inputs give `0`, matching `Int.toNat` of the floor) and
at `u64::MAX` above (irrelevant once clamped to `255`). -/
def rustCastU64 (q : Scalar) : Nat := q.floor.toNat

/-- One channel of the source `impl Display for Color`:
`((255.0 * v) as u64).clamp(0, 255)`; the cast is already nonnegative, so
the clamp is `min · 255`. -/
def Color.channel (x : Scalar) : Nat := min (rustCastU64 (255 * x)) 255

/-- Source `impl Display for Color`: `write!(f, "{} {} {}", r, g, b)` with
the three clamped channels. -/
def Color.display (c : Color) : String :=
  toString (Color.channel c.r) ++ " " ++ toString (Color.channel c.g)
    ++ " " ++ toString (Color.channel c.b)

/-- Source `enum CanvasError`. -/
inductive CanvasError where
  | InvalidIndex

/-- Source `Canvas`: width, height and a flat pixel vector. -/
structure Canvas where
  width : Nat
  height : Nat
  pixels : List Color

/-- Source `Canvas::with_color`: `width * height` copies of one color. -/
def Canvas.with_color (w h : Nat) (c : Color) : Canvas :=
  ⟨w, h, List.replicate (w * h) c⟩

/-- Source `Canvas::new`: a canvas filled with the default color. -/
def Canvas.new (w h : Nat) : Canvas := Canvas.with_color w h BLACK

/-- Source `Canvas::pixel_index`: flatten to `x + y * width` and compare
against `pixels.len()` (not against per-axis bounds). -/
def Canvas.pixel_index (cv : Canvas) (x y : Nat) : Except CanvasError Nat :=
  let i := x + y * cv.width
  if i < cv.pixels.length then Except.ok i
  else Except.error CanvasError.InvalidIndex

/-- Source `Canvas::pixel`: validate through `pixel_index`, then read the
flat slot. -/
def Canvas.pixel (cv : Canvas) (x y : Nat) : Except CanvasError Color :=
  match cv.pixel_index x y with
  | Except.ok i => Except.ok (cv.pixels.getD i BLACK)
  | Except.error e => Except.error e

/-- Source `Canvas::pixel_mut`: validate through `pixel_index` and hand
out a mutable slot; modelled as writing a color through that slot. -/
def Canvas.pixel_mut (cv : Canvas) (x y : Nat) (c : Color) : Except CanvasError Canvas :=
  match cv.pixel_index x y with
  | Except.ok i => Except.ok ⟨cv.width, cv.height, cv.pixels.set i c⟩
  | Except.error e => Except.error e

/-- Source `Canvas::write_file`: one `writeln!` with
`"P3\n{} {}\n255"`, then one `writeln!` per pixel in flat order, each
rendering the pixel through `Display`. -/
def Canvas.writeFileContent (cv : Canvas) : String :=
  cv.pixels.foldl (fun acc p => acc ++ (Color.display p ++ "\n"))
    ("P3" ++ "\n" ++ toString cv.width ++ " " ++ toString cv.height
      ++ "\n" ++ "255" ++ "\n")

namespace TinyMatrix

/-- Reading cell `(r, c)` of `ofFn D f` recovers `f r c` whenever the
column index is in range: the flat index `c + r * D` then decodes uniquely
to the pair `(r, c)`. -/
theorem get_ofFn {D : Nat} (f : Nat → Nat → Scalar) (r c : Nat) (hc : c < D) :
    (ofFn D f).get r c = f r c := by
  have hD : 0 < D := Nat.lt_of_le_of_lt (Nat.zero_le _) hc
  show f ((c + r * D) / D) ((c + r * D) % D) = f r c
  rw [Nat.add_mul_div_right _ _ hD, Nat.add_mul_mod_self_right,
    Nat.div_eq_of_lt hc, Nat.mod_eq_of_lt hc, Nat.zero_add]

/-- An accumulating left fold over `List.range n` is the finite sum. -/
theorem range_foldl_add_eq_sum (f : Nat → Scalar) :
    ∀ n : Nat, (List.range n).foldl (fun acc j => acc + f j) 0
      = ∑ j ∈ Finset.range n, f j := by
  intro n
  induction n with
  | zero => simp
  | succ n ih =>
    rw [List.range_succ, List.foldl_append, ih, List.foldl_cons, List.foldl_nil,
      Finset.sum_range_succ]

/-- Flat diagonal indices decode uniquely: `c + r * D = i + i * D` with
`c, i < D` forces `r = i` and `c = i`. -/
theorem idx_diag_iff {D r c i : Nat} (hc : c < D) (hi : i < D) :
    idx D r c = idx D i i ↔ r = i ∧ c = i := by
  unfold idx
  constructor
  · intro h
    have hD : 0 < D := Nat.lt_of_le_of_lt (Nat.zero_le _) hc
    have hci : c = i := by
      have hmod := congrArg (fun t => t % D) h
      simpa [Nat.add_mul_mod_self_right, Nat.mod_eq_of_lt hc,
        Nat.mod_eq_of_lt hi] using hmod
    have hmul : r * D = i * D := by
      rw [hci] at h
      exact Nat.add_left_cancel h
    exact ⟨Nat.eq_of_mul_eq_mul_right hD hmul, hci⟩
  · rintro ⟨rfl, rfl⟩
    rfl

/-- Effect of the `ident` construction loop on the flat data: a slot holds
`1` exactly when some loop step `i < n` wrote the diagonal index
`idx D i i` there, and otherwise keeps its initial value. -/
theorem ident_loop_data (D : Nat) :
    ∀ (n : Nat) (m0 : TinyMatrix D) (j : Nat),
    ((List.range n).foldl (fun m i => m.setData (idx D i i) 1) m0).data j
      = if ∃ i, i < n ∧ j = idx D i i then (1 : Scalar) else m0.data j := by
  intro n
  induction n with
  | zero => intro m0 j; simp
  | succ n ih =>
    intro m0 j
    rw [List.range_succ, List.foldl_append, List.foldl_cons, List.foldl_nil]
    show (if j = idx D n n then (1 : Scalar)
        else ((List.range n).foldl (fun m i => m.setData (idx D i i) 1) m0).data j) = _
    rw [ih]
    by_cases h1 : j = idx D n n
    · rw [if_pos h1, if_pos ⟨n, Nat.lt_succ_self n, h1⟩]
    · rw [if_neg h1]
      by_cases h2 : ∃ i, i < n ∧ j = idx D i i

      · obtain ⟨i, hi, hj⟩ := h2
        rw [if_pos ⟨i, hi, hj⟩, if_pos ⟨i, Nat.lt_succ_of_lt hi, hj⟩]
      · rw [if_neg h2, if_neg]
        rintro ⟨i, hi, hj⟩
        rcases Nat.lt_succ_iff_lt_or_eq.mp hi with h | h
        · exact h2 ⟨i, h, hj⟩
        · subst h; exact h1 hj

/-- Entries of `ident`: `1` on the diagonal, `0` elsewhere. -/
theorem ident_get {D : Nat} (r c : Nat) (hr : r < D) (hc : c < D) :
    (ident D).get r c = if r = c then (1 : Scalar) else 0 := by
  show ((List.range D).foldl (fun m i => m.setData (idx D i i) 1) (zero D)).data
      (idx D r c) = _
  rw [ident_loop_data]
  by_cases h : r = c
  · subst h
    rw [if_pos ⟨r, hr, rfl⟩, if_pos rfl]
  · rw [if_neg, if_neg h]
    · rfl
    · rintro ⟨i, hi, hj⟩
      rcases (idx_diag_iff hc hi).mp hj with ⟨rfl, rfl⟩
      exact h rfl

/-- Claim C2: for every order-1 matrix, `determinant()` returns its single
element; for every matrix of order `D ≥ 2` (covering `D ∈ {2,3,4}`),
`determinant()` equals the Laplace expansion along the first row:
`Σ_{c=0}^{D-1} self[0][c] * cofactor(0, c)`. -/
theorem det_laplace_spec :
    (∀ m : TinyMatrix 1, det 1 m = m.get 0 0)
    ∧ (∀ (d : Nat) (m : TinyMatrix (d + 2)),
        det (d + 2) m = ∑ c ∈ Finset.range (d + 2), m.get 0 c * m.cofactor 0 c) := by
  constructor
  · intro m
    rfl
  · intro d m
    have h1 : det (d + 2) m
        = (List.range (d + 2)).foldl
            (fun acc c => acc + m.get 0 c *
              ((if (0 + c) % 2 = 0 then (1 : Scalar) else -1)
                * det (d + 1) (m.delete 0 c))) 0 := rfl
    exact h1.trans ((range_foldl_add_eq_sum _ (d + 2)).trans
      (Finset.sum_congr rfl (fun c _ => rfl)))

/-- Claim C3 counterexample: the order-3 scenario matrix
`[[1,2,3],[3,1,2],[2,3,1]]` does not have determinant `-18` (the value is
`18`), and the direct expansion the spec cites is not `-18` either. -/
theorem det3_scenario_counterexample :
    det 3 (ofList 3 [1, 2, 3, 3, 1, 2, 2, 3, 1]) ≠ -18
    ∧ (1 * (1 * 1 - 2 * 3) - 2 * (3 * 1 - 2 * 2) + 3 * (3 * 3 - 1 * 2) : Scalar) ≠ -18 := by
  constructor <;> norm_num [det, delete, ofList, ofFn, get, idx, List.range_succ]

/-- Claim C3 as amended: `det [[1,2],[2,1]] = -3`, and
`det [[1,2,3],[3,1,2],[2,3,1]] = 18`, which equals the direct expansion
`1*(1*1-2*3) - 2*(3*1-2*2) + 3*(3*3-1*2)` (the value the source test
asserts). -/
theorem det_scenarios_spec :
    det 2 (ofList 2 [1, 2, 2, 1]) = -3
    ∧ det 3 (ofList 3 [1, 2, 3, 3, 1, 2, 2, 3, 1]) = 18
    ∧ det 3 (ofList 3 [1, 2, 3, 3, 1, 2, 2, 3, 1])
        = 1 * (1 * 1 - 2 * 3) - 2 * (3 * 1 - 2 * 2) + 3 * (3 * 3 - 1 * 2) := by
  refine ⟨?_, ?_, ?_⟩ <;>
    norm_num [det, delete, ofList, ofFn, get, idx, List.range_succ]

/-- Claim C4: for every order `D ≥ 2` (covering `D ∈ {2,3,4}`) and
in-range indices, `delete(r, c)` is the matrix with row `r` and column `c`
removed, and `cofactor(r, c)` is `sign * delete(r,c).determinant()` with
the checkerboard sign. -/
theorem delete_cofactor_spec (d : Nat) (m : TinyMatrix (d + 2)) (r c i j : Nat)
    (hr : r < d + 2) (hc : c < d + 2) (hi : i < d + 1) (hj : j < d + 1) :
    (m.delete r c).get i j
      = m.get (if i < r then i else i + 1) (if j < c then j else j + 1)
    ∧ m.cofactor r c
      = (if (r + c) % 2 = 0 then (1 : Scalar) else -1) * det (d + 1) (m.delete r c) :=
  ⟨get_ofFn _ i j hj, rfl⟩

/-- Claim C4 witness at the order-2 matrix `[[1,2],[3,4]]`,
`r = 0`, `c = 1`, cell `(0, 0)` of the minor. -/
theorem delete_cofactor_spec_witness :
    ((ofList 2 [1, 2, 3, 4]).delete 0 1).get 0 0
      = (ofList 2 [1, 2, 3, 4]).get (if 0 < 0 then 0 else 0 + 1) (if 0 < 1 then 0 else 0 + 1)
    ∧ (ofList 2 [1, 2, 3, 4]).cofactor 0 1
      = (if (0 + 1) % 2 = 0 then (1 : Scalar) else -1)
        * det 1 ((ofList 2 [1, 2, 3, 4]).delete 0 1) :=
  delete_cofactor_spec 0 (ofList 2 [1, 2, 3, 4]) 0 1 0 0
    (by decide) (by decide) (by decide) (by decide)

/-- Claim C5: the product of two matrices of the same order is the
standard matrix product, cell by cell. -/
theorem mul_spec (D : Nat) (a b : TinyMatrix D) (r c : Nat)
    (hr : r < D) (hc : c < D) :
    (a.mul b).get r c = ∑ k ∈ Finset.range D, a.get r k * b.get k c :=
  (get_ofFn _ r c hc).trans (range_foldl_add_eq_sum _ D)

/-- Claim C5 witness: cell `(1, 0)` of `[[1,2],[3,4]]` squared. -/
theorem mul_spec_witness :
    ((ofList 2 [1, 2, 3, 4]).mul (ofList 2 [1, 2, 3, 4])).get 1 0
      = ∑ k ∈ Finset.range 2,
          (ofList 2 [1, 2, 3, 4]).get 1 k * (ofList 2 [1, 2, 3, 4]).get k 0 :=
  mul_spec 2 (ofList 2 [1, 2, 3, 4]) (ofList 2 [1, 2, 3, 4]) 1 0
    (by decide) (by decide)

/-- Claim C6: `zero()`, `one()` and `ident()` are total and give,
elementwise, `0` everywhere, `1` everywhere, and `1` on the diagonal with
`0` off it. -/
theorem constructors_spec (D r c : Nat) (hr : r < D) (hc : c < D) :
    (zero D).get r c = 0 ∧ (one D).get r c = 1
    ∧ (ident D).get r c = if r = c then (1 : Scalar) else 0 :=
  ⟨rfl, rfl, ident_get r c hr hc⟩

/-- Claim C6 witness at order 2, cell `(0, 1)`. -/
theorem constructors_spec_witness :
    (zero 2).get 0 1 = 0 ∧ (one 2).get 0 1 = 1
    ∧ (ident 2).get 0 1 = if 0 = 1 then (1 : Scalar) else 0 :=
  constructors_spec 2 0 1 (by decide) (by decide)

/-- Claim C7: matrix addition is commutative elementwise, and adding the
elementwise negation of a matrix yields the zero matrix, under the exact
elementwise equality of the source `PartialEq`. -/
theorem add_comm_neg_spec (D : Nat) (a b : TinyMatrix D) (r c : Nat)
    (hr : r < D) (hc : c < D) :
    (a.add b).get r c = (b.add a).get r c
    ∧ (a.add a.neg).get r c = (zero D).get r c := by
  constructor
  · exact add_comm _ _
  · show -(a.data (idx D r c)) + a.data (idx D r c) = (0 : Scalar)
    exact neg_add_cancel _

/-- Claim C7 witness at order 2, matrices `[[1,2],[3,4]]` and
`[[5,6],[7,8]]`, cell `(0, 0)`. -/
theorem add_comm_neg_spec_witness :
    ((ofList 2 [1, 2, 3, 4]).add (ofList 2 [5, 6, 7, 8])).get 0 0
      = ((ofList 2 [5, 6, 7, 8]).add (ofList 2 [1, 2, 3, 4])).get 0 0
    ∧ ((ofList 2 [1, 2, 3, 4]).add (ofList 2 [1, 2, 3, 4]).neg).get 0 0
      = (zero 2).get 0 0 :=
  add_comm_neg_spec 2 (ofList 2 [1, 2, 3, 4]) (ofList 2 [5, 6, 7, 8]) 0 0
    (by decide) (by decide)

/-- Claim C8: `transposed()` returns the matrix with
`result[r][c] = self[c][r]` (a pure function of the input value), and
transposing twice restores every element exactly. -/
theorem transposed_spec (D : Nat) (m : TinyMatrix D) (r c : Nat)
    (hr : r < D) (hc : c < D) :
    (transposed m).get r c = m.get c r
    ∧ (transposed (transposed m)).get r c = m.get r c := by
  have h1 : (transposed m).get r c = m.get c r := get_ofFn _ r c hc
  have h2 : (transposed (transposed m)).get r c = (transposed m).get c r :=
    get_ofFn _ r c hc
  have h3 : (transposed m).get c r = m.get r c := get_ofFn _ c r hr
  exact ⟨h1, h2.trans h3⟩

/-- Claim C8 witness at order 2, matrix `[[1,2],[3,4]]`, cell `(0, 1)`. -/
theorem transposed_spec_witness :
    (transposed (ofList 2 [1, 2, 3, 4])).get 0 1 = (ofList 2 [1, 2, 3, 4]).get 1 0
    ∧ (transposed (transposed (ofList 2 [1, 2, 3, 4]))).get 0 1
      = (ofList 2 [1, 2, 3, 4]).get 0 1 :=
  transposed_spec 2 (ofList 2 [1, 2, 3, 4]) 0 1 (by decide) (by decide)

/-- Claim C1: for every order `D ≥ 2` (covering `D ∈ {2,3,4}`),
`inverse()` is absent exactly when the determinant is exactly `0` (no
tolerance band), and otherwise carries the transposed cofactor matrix
with every element divided by the determinant. -/
theorem inverse_spec (d : Nat) (m : TinyMatrix (d + 2)) :
    (m.inverse = none ↔ det (d + 2) m = 0)
    ∧ (det (d + 2) m ≠ 0 → ∀ r c : Nat, r < d + 2 → c < d + 2 →
        ∃ mi, m.inverse = some mi
          ∧ mi.get r c = m.cofactor c r / det (d + 2) m) := by
  have hinv : m.inverse
      = if det (d + 2) m = 0 then none
        else some (divScalar (transposed (cofactorMatrix m)) (det (d + 2) m)) := rfl
  constructor
  · rw [hinv]
    by_cases h : det (d + 2) m = 0
    · simp [h]
    · simp [h]
  · intro hdet r c hr hc
    refine ⟨divScalar (transposed (cofactorMatrix m)) (det (d + 2) m), ?_, ?_⟩
    · rw [hinv, if_neg hdet]
    · have h1 : (divScalar (transposed (cofactorMatrix m)) (det (d + 2) m)).get r c
          = (transposed (cofactorMatrix m)).get r c / det (d + 2) m := rfl
      have h2 : (transposed (cofactorMatrix m)).get r c = (cofactorMatrix m).get c r :=
        get_ofFn _ r c hc
      have h3 : (cofactorMatrix m).get c r = m.cofactor c r := get_ofFn _ c r hr
      rw [h1, h2, h3]

/-- Helper for the C1 witness: the scenario matrix `[[4,1],[3,2]]` has
determinant `5`, which is not `0`. -/
theorem det_4132_ne_zero : det 2 (ofList 2 [4, 1, 3, 2]) ≠ 0 := by
  norm_num [det, delete, ofList, ofFn, get, idx, List.range_succ]

/-- Claim C1 witness at the invertible order-2 matrix `[[4,1],[3,2]]`,
cell `(0, 1)` of the inverse. -/
theorem inverse_spec_witness :
    ((ofList 2 [4, 1, 3, 2]).inverse = none ↔ det 2 (ofList 2 [4, 1, 3, 2]) = 0)
    ∧ ∃ mi, (ofList 2 [4, 1, 3, 2]).inverse = some mi
        ∧ mi.get 0 1 = (ofList 2 [4, 1, 3, 2]).cofactor 1 0 / det 2 (ofList 2 [4, 1, 3, 2]) :=
  ⟨(inverse_spec 0 (ofList 2 [4, 1, 3, 2])).1,
    (inverse_spec 0 (ofList 2 [4, 1, 3, 2])).2 det_4132_ne_zero 0 1
      (by decide) (by decide)⟩

end TinyMatrix

/-- Appending a fold of rendered items onto a seed string is the seed
followed by the joined renderings. -/
theorem foldl_append_join (g : Color → String) (l : List Color) :
    ∀ s : String, l.foldl (fun acc p => acc ++ g p) s = s ++ String.join (l.map g) := by
  induction l with
  | nil =>
    intro s
    apply String.ext
    simp
  | cons p l ih =>
    intro s
    rw [List.foldl_cons, ih]
    apply String.ext
    simp

/-- Claim C9: `write_file` emits a three-line header — the magic token
`P3`, the `width height` pair, and the maximum channel value `255` — then
one line per pixel carrying three space-separated integers, each between
`0` and `255` (the channel values are naturals, so the lower bound is
inherent). -/
theorem write_file_format_spec (cv : Canvas) :
    cv.writeFileContent
      = "P3" ++ "\n" ++ (toString cv.width ++ " " ++ toString cv.height) ++ "\n"
        ++ "255" ++ "\n"
        ++ String.join (cv.pixels.map (fun p => Color.display p ++ "\n"))
    ∧ ∀ p ∈ cv.pixels,
        Color.display p
          = toString (Color.channel p.r) ++ " " ++ toString (Color.channel p.g)
            ++ " " ++ toString (Color.channel p.b)
        ∧ Color.channel p.r ≤ 255 ∧ Color.channel p.g ≤ 255
        ∧ Color.channel p.b ≤ 255 := by
  constructor
  · rw [Canvas.writeFileContent, foldl_append_join]
    apply String.ext
    simp
  · intro p _
    exact ⟨rfl, Nat.min_le_right _ _, Nat.min_le_right _ _, Nat.min_le_right _ _⟩

/-- Claim C9 witness at a one-pixel canvas holding the color
`(1, 0, 2)`. -/
theorem write_file_format_spec_witness :
    (Canvas.mk 1 1 [Color.mk 1 0 2]).writeFileContent
      = "P3" ++ "\n" ++ (toString (1 : Nat) ++ " " ++ toString (1 : Nat)) ++ "\n"
        ++ "255" ++ "\n"
        ++ String.join ([Color.mk 1 0 2].map (fun p => Color.display p ++ "\n"))
    ∧ Color.display (Color.mk 1 0 2)
        = toString (Color.channel (1 : Scalar)) ++ " " ++ toString (Color.channel (0 : Scalar))
          ++ " " ++ toString (Color.channel (2 : Scalar))
      ∧ Color.channel (1 : Scalar) ≤ 255 ∧ Color.channel (0 : Scalar) ≤ 255
      ∧ Color.channel (2 : Scalar) ≤ 255 :=
  ⟨(write_file_format_spec (Canvas.mk 1 1 [Color.mk 1 0 2])).1,
    (write_file_format_spec (Canvas.mk 1 1 [Color.mk 1 0 2])).2
      (Color.mk 1 0 2) (by simp)⟩

/-- Claim C10: with the constructor invariant
`pixels.len() = width * height`, both `pixel` and `pixel_mut` signal
`InvalidIndex` exactly when the flattened index `x + y * width` reaches
`width * height`; an `x ≥ width` whose flattened index is still in range
succeeds and addresses the flat slot `x + y * width`, which lies on a row
strictly below `y`. -/
theorem pixel_bounds_spec (cv : Canvas) (x y : Nat) (col : Color)
    (hlen : cv.pixels.length = cv.width * cv.height) :
    (cv.pixel x y = Except.error CanvasError.InvalidIndex
        ↔ cv.width * cv.height ≤ x + y * cv.width)
    ∧ (cv.pixel_mut x y col = Except.error CanvasError.InvalidIndex
        ↔ cv.width * cv.height ≤ x + y * cv.width)
    ∧ (cv.width ≤ x → x + y * cv.width < cv.width * cv.height →
        cv.pixel x y = Except.ok (cv.pixels.getD (x + y * cv.width) BLACK)
        ∧ y < (x + y * cv.width) / cv.width) := by
  have hidx : cv.pixel_index x y
      = if x + y * cv.width < cv.pixels.length then Except.ok (x + y * cv.width)
        else Except.error CanvasError.InvalidIndex := rfl
  have hok : x + y * cv.width < cv.pixels.length →
      cv.pixel x y = Except.ok (cv.pixels.getD (x + y * cv.width) BLACK) := by
    intro h
    simp only [Canvas.pixel, hidx, if_pos h]
  refine ⟨?_, ?_, ?_⟩
  · by_cases h : x + y * cv.width < cv.pixels.length
    · rw [hok h]
      rw [hlen] at h
      simp
      omega
    · have herr : cv.pixel x y = Except.error CanvasError.InvalidIndex := by
        simp only [Canvas.pixel, hidx, if_neg h]
      rw [hlen] at h
      rw [herr]
      simp
      omega
  · by_cases h : x + y * cv.width < cv.pixels.length
    · have hmut : cv.pixel_mut x y col
          = Except.ok (Canvas.mk cv.width cv.height (cv.pixels.set (x + y * cv.width) col)) := by
        simp only [Canvas.pixel_mut, hidx, if_pos h]
      rw [hmut, hlen] at *
      simp
      omega
    · have hmut : cv.pixel_mut x y col = Except.error CanvasError.InvalidIndex := by
        simp only [Canvas.pixel_mut, hidx, if_neg h]
      rw [hlen] at h
      rw [hmut]
      simp
      omega
  · intro hxw hlt
    have hw : 0 < cv.width := by
      rcases Nat.eq_zero_or_pos cv.width with h0 | h0
      · rw [h0] at hlt
        omega
      · exact h0
    have hlt' : x + y * cv.width < cv.pixels.length := by rw [hlen]; exact hlt
    refine ⟨hok hlt', ?_⟩
    rw [Nat.add_mul_div_right x y hw]
    have h1 : 1 ≤ x / cv.width := (Nat.one_le_div_iff hw).mpr hxw
    omega

/-- Claim C10 witness: on the 10×20 canvas from `Canvas::new`, the call
`pixel(15, 0)` has flattened index `15 < 200`. -/
theorem pixel_bounds_spec_witness :
    ((Canvas.new 10 20).pixel 15 0 = Except.error CanvasError.InvalidIndex
        ↔ (Canvas.new 10 20).width * (Canvas.new 10 20).height
          ≤ 15 + 0 * (Canvas.new 10 20).width)
    ∧ ((Canvas.new 10 20).pixel_mut 15 0 BLACK = Except.error CanvasError.InvalidIndex
        ↔ (Canvas.new 10 20).width * (Canvas.new 10 20).height
          ≤ 15 + 0 * (Canvas.new 10 20).width)
    ∧ ((Canvas.new 10 20).width ≤ 15
        → 15 + 0 * (Canvas.new 10 20).width
            < (Canvas.new 10 20).width * (Canvas.new 10 20).height
        → (Canvas.new 10 20).pixel 15 0
            = Except.ok ((Canvas.new 10 20).pixels.getD
                (15 + 0 * (Canvas.new 10 20).width) BLACK)
          ∧ 0 < (15 + 0 * (Canvas.new 10 20).width) / (Canvas.new 10 20).width) :=
  pixel_bounds_spec (Canvas.new 10 20) 15 0 BLACK
    (by simp only [Canvas.new, Canvas.with_color, List.length_replicate])

end RayTracer
